import Mathlib

/-
Verification development for scripts/build-iso.py (live-iso repository).

The script assembles an archiso profile.  We embed its pure cores:
  * configure_pacman   : textual insertion of repository sections (lines 208-242)
  * inject_ssh_keys    : credential filtering, file write, chmod calls (lines 173-205)
  * service activation : disable_conflicting_services / enable_services (lines 245-286, 306-324)
  * boot reconciliation: entry removal and boot-config copies (lines 149-168)
  * base template copy : shutil.copytree with symlinks=True (line 130)
  * package naming     : kernel / zfs package identifiers (lines 103-105)

File text is modelled as List Char, directories as association lists or as
functions from path strings to optional nodes.
-/

set_option maxRecDepth 8000

/-- Prefix test on character lists; models Python startswith and the
matching step of str.replace. -/
def isPre : List Char → List Char → Bool
  | [], _ => true
  | _ :: _, [] => false
  | a :: as, b :: bs => a == b && isPre as bs

/-- Substring test; models the Python membership test on strings. -/
def hasSub (pat : List Char) : List Char → Bool
  | [] => isPre pat []
  | c :: cs => isPre pat (c :: cs) || hasSub pat cs

/-- Number of positions of s at which pat matches. -/
def occCount (pat : List Char) : List Char → Nat
  | [] => 0
  | c :: cs => (if isPre pat (c :: cs) then 1 else 0) + occCount pat cs

/-- Left-to-right scan of Python str.replace for a nonempty pattern
o :: os.  The fuel argument only serves to make the recursion structural;
fuel at least the length of the scanned list is always enough, because
every step consumes at least one character. -/
def pyRepAux (o : Char) (os new : List Char) : Nat → List Char → List Char
  | _, [] => []
  | 0, s => s
  | fuel + 1, c :: cs =>
    if isPre (o :: os) (c :: cs)
    then new ++ pyRepAux o os new fuel (cs.drop os.length)
    else c :: pyRepAux o os new fuel cs

/-- Python str.replace(old, new) replacing every occurrence, for nonempty
old.  (The script only ever replaces the nonempty anchor.) -/
def pyReplace (old new s : List Char) : List Char :=
  match old with
  | [] => s
  | o :: os => pyRepAux o os new s.length s

/-- The anchor text looked up by configure_pacman. -/
def anchorCore : List Char := "[core]".toList

/-- The archzfs section text inserted by configure_pacman (lines 221-226). -/
def archzfs_repo : List Char :=
  ("\n[archzfs]\nSigLevel = Optional TrustAll\nServer = https://archzfs.com/$repo/$arch\nServer = https://mirror.sum7.eu/archlinux/archzfs/$repo/$arch\n").toList

/-- The pinned section text inserted by configure_pacman when a staged
local repository directory exists (lines 231-235). -/
def mkPinnedRepo (dir : List Char) : List Char :=
  ("\n[pinned]\nSigLevel = Optional TrustAll\nServer = file://").toList ++ dir ++ ['\n']

/-- configure_pacman (lines 208-242) as a function on the file content:
read content; if the anchor occurs, replace every occurrence of the anchor
by pinned text, archzfs text, anchor; otherwise leave the content alone. -/
def configure_pacman (pinnedDir : Option (List Char)) (content : List Char) : List Char :=
  let pinned_repo : List Char :=
    match pinnedDir with
    | none => []
    | some d => mkPinnedRepo d
  if hasSub anchorCore content then
    pyReplace anchorCore (pinned_repo ++ archzfs_repo ++ anchorCore) content
  else content

theorem isPre_eq_append : ∀ (p s : List Char), isPre p s = true → s = p ++ s.drop p.length := by
  intro p
  induction p with
  | nil => intro s _; simp
  | cons a as ih =>
    intro s h
    cases s with
    | nil => simp [isPre] at h
    | cons b bs =>
      simp only [isPre, Bool.and_eq_true, beq_iff_eq] at h
      obtain ⟨rfl, h2⟩ := h
      have := ih bs h2
      simp only [List.length_cons, List.drop_succ_cons, List.cons_append]
      exact congrArg _ this

theorem isPre_append_self : ∀ (p t : List Char), isPre p (p ++ t) = true := by
  intro p
  induction p with
  | nil => intro t; simp [isPre]
  | cons a as ih => intro t; simp [isPre, ih]

theorem drop_len_append (p t : List Char) : (p ++ t).drop p.length = t := by
  induction p with
  | nil => simp
  | cons a as ih => simp

theorem occCount_cons_le (pat : List Char) (c : Char) (cs : List Char) :
    occCount pat cs ≤ occCount pat (c :: cs) := by
  simp only [occCount]
  omega

theorem occCount_drop_le (pat : List Char) :
    ∀ (s : List Char) (k : Nat), occCount pat (s.drop k) ≤ occCount pat s := by
  intro s
  induction s with
  | nil => intro k; simp
  | cons c cs ih =>
    intro k
    cases k with
    | zero => simp
    | succ k =>
      simp only [List.drop_succ_cons]
      exact le_trans (ih k) (occCount_cons_le pat c cs)

theorem pyRepAux_no_occ (o : Char) (os new : List Char) :
    ∀ (fuel : Nat) (s : List Char), occCount (o :: os) s = 0 →
      pyRepAux o os new fuel s = s := by
  intro fuel
  induction fuel with
  | zero => intro s _; cases s <;> rfl
  | succ fuel ih =>
    intro s h
    cases s with
    | nil => rfl
    | cons c cs =>
      simp only [occCount] at h
      have hp : isPre (o :: os) (c :: cs) = false := by
        cases hq : isPre (o :: os) (c :: cs) with
        | false => rfl
        | true => simp [hq] at h
      have hc : occCount (o :: os) cs = 0 := by
        simp [hp] at h; exact h
      simp [pyRepAux, hp, ih cs hc]

theorem pyRepAux_fuel_irrel (o : Char) (os new : List Char) :
    ∀ (f : Nat) (g : Nat) (s : List Char), s.length ≤ f → s.length ≤ g →
      pyRepAux o os new f s = pyRepAux o os new g s := by
  intro f
  induction f with
  | zero =>
    intro g s hf _
    have : s = [] := by
      cases s with
      | nil => rfl
      | cons c cs => simp at hf
    subst this
    cases g <;> rfl
  | succ f ih =>
    intro g s hf hg
    cases s with
    | nil => cases g <;> rfl
    | cons c cs =>
      cases g with
      | zero => simp at hg
      | succ g =>
        simp only [List.length_cons, Nat.succ_le_succ_iff] at hf hg
        cases hp : isPre (o :: os) (c :: cs) with
        | true =>
          have hlen : (cs.drop os.length).length ≤ cs.length := by
            simp [List.length_drop]
          simp only [pyRepAux, hp, if_true]
          exact congrArg _ (ih g _ (le_trans hlen hf) (le_trans hlen hg))
        | false =>
          simp [pyRepAux, hp, ih g cs hf hg]

theorem pyRepAux_one_occ (o : Char) (os new : List Char) :
    ∀ (fuel : Nat) (s : List Char), s.length ≤ fuel → occCount (o :: os) s = 1 →
      ∃ pre post, s = pre ++ (o :: os) ++ post ∧
        pyRepAux o os new fuel s = pre ++ new ++ post := by
  intro fuel
  induction fuel with
  | zero =>
    intro s hf h
    have : s = [] := by
      cases s with
      | nil => rfl
      | cons c cs => simp at hf
    subst this
    simp [occCount] at h
  | succ fuel ih =>
    intro s hf h
    cases s with
    | nil => simp [occCount] at h
    | cons c cs =>
      simp only [List.length_cons, Nat.succ_le_succ_iff] at hf
      by_cases hp : isPre (o :: os) (c :: cs) = true
      · have hc : occCount (o :: os) cs = 0 := by
          simp only [occCount, hp, if_true] at h
          omega
        have hdec := isPre_eq_append (o :: os) (c :: cs) hp
        have hdrop : (c :: cs).drop (o :: os).length = cs.drop os.length := by
          simp
        rw [hdrop] at hdec
        have hzero : occCount (o :: os) (cs.drop os.length) = 0 :=
          Nat.le_zero.mp (hc ▸ occCount_drop_le (o :: os) cs os.length)
        refine ⟨[], cs.drop os.length, by simpa using hdec, ?_⟩
        simp only [pyRepAux, hp, if_true, List.nil_append]
        exact congrArg _ (pyRepAux_no_occ o os new fuel _ hzero)
      · have hc : occCount (o :: os) cs = 1 := by
          simp only [occCount, hp] at h
          simpa using h
        obtain ⟨pre, post, e1, e2⟩ := ih cs hf hc
        refine ⟨c :: pre, post, by simp [e1], ?_⟩
        simp only [pyRepAux, hp, if_false]
        simp [e2]

theorem pyRepAux_skip (o : Char) (os new : List Char) :
    ∀ (pre : List Char) (rest : List Char) (fuel : Nat), pre.length ≤ fuel →
      (∀ j, j < pre.length → isPre (o :: os) ((pre ++ rest).drop j) = false) →
      pyRepAux o os new fuel (pre ++ rest) =
        pre ++ pyRepAux o os new (fuel - pre.length) rest := by
  intro pre
  induction pre with
  | nil => intro rest fuel _ _; simp
  | cons c pre ih =>
    intro rest fuel hf hocc
    cases fuel with
    | zero => simp at hf
    | succ fuel =>
      have h0 : isPre (o :: os) (c :: (pre ++ rest)) = false := by
        have := hocc 0 (by simp)
        simpa using this
      have hocc' : ∀ j, j < pre.length → isPre (o :: os) ((pre ++ rest).drop j) = false := by
        intro j hj
        have := hocc (j + 1) (by simpa using Nat.succ_lt_succ hj)
        simpa using this
      have hrec := ih rest fuel (by simpa using hf) hocc'
      simp [pyRepAux, h0, hrec, Nat.succ_sub_succ]

theorem pyRepAux_consume (o : Char) (os new : List Char) (rest : List Char) (fuel : Nat)
    (hf : 1 ≤ fuel) :
    pyRepAux o os new fuel ((o :: os) ++ rest) =
      new ++ pyRepAux o os new (fuel - 1) rest := by
  cases fuel with
  | zero => simp at hf
  | succ fuel =>
    have hp : isPre (o :: os) ((o :: os) ++ rest) = true := isPre_append_self _ _
    have hd : (os ++ rest).drop os.length = rest := drop_len_append os rest
    simp only [List.cons_append, pyRepAux] at *
    simp [hp, hd]

theorem hasSub_of_isPre (pat s : List Char) (h : isPre pat s = true) :
    hasSub pat s = true := by
  cases s with
  | nil => simpa [hasSub] using h
  | cons c cs => simp [hasSub, h]

theorem hasSub_of_decomp (pat : List Char) :
    ∀ (pre rest : List Char), hasSub pat (pre ++ pat ++ rest) = true := by
  intro pre
  induction pre with
  | nil =>
    intro rest
    exact hasSub_of_isPre _ _ (by simpa using isPre_append_self pat rest)
  | cons c pre ih =>
    intro rest
    simp only [List.cons_append, hasSub, Bool.or_eq_true]
    exact Or.inr (ih rest)

theorem anchorCore_cons : anchorCore = '[' :: "core]".toList := by decide

theorem configure_pacman_eq_aux (dir content : List Char)
    (hs : hasSub anchorCore content = true) :
    configure_pacman (some dir) content =
      pyRepAux '[' "core]".toList (mkPinnedRepo dir ++ archzfs_repo ++ anchorCore)
        content.length content := by
  simp only [configure_pacman, hs, if_true]
  rfl

/-- A text assembled from segments with one copy of the separator a after
every segment: sew a [s0, ..., sk] tail is s0, a, s1, a, ..., sk, a,
tail.  The separator occurrences of interest are the k+1 marked ones. -/
def sew (a : List Char) : List (List Char) → List Char → List Char
  | [], tail => tail
  | s :: ss, tail => s ++ (a ++ sew a ss tail)

/-- The marked decomposition is clean: scanning each segment never hits a
match of the pattern (not inside the segment and not spanning out of it),
and the final tail holds no match, so the pattern occurs exactly at the
marked positions. -/
def cleanSegs (a : List Char) : List (List Char) → List Char → Bool
  | [], tail => occCount a tail == 0
  | s :: ss, tail =>
    (List.range s.length).all
        (fun j => !(isPre a ((sew a (s :: ss) tail).drop j)))
      && cleanSegs a ss tail

/-- The replace scan rewrites every marked occurrence of the pattern,
however many there are. -/
theorem pyRepAux_sew (o : Char) (os new : List Char) :
    ∀ (segs : List (List Char)) (tail : List Char) (fuel : Nat),
      (sew (o :: os) segs tail).length ≤ fuel →
      cleanSegs (o :: os) segs tail = true →
      pyRepAux o os new fuel (sew (o :: os) segs tail) = sew new segs tail := by
  intro segs
  induction segs with
  | nil =>
    intro tail fuel _ hclean
    have h0 : occCount (o :: os) tail = 0 := by
      simpa [cleanSegs] using hclean
    exact pyRepAux_no_occ o os new fuel tail h0
  | cons s ss ih =>
    intro tail fuel hf hclean
    have hskip : ∀ j, j < s.length →
        isPre (o :: os) ((sew (o :: os) (s :: ss) tail).drop j) = false := by
      intro j hj
      have h := hclean
      simp only [cleanSegs, Bool.and_eq_true, List.all_eq_true, List.mem_range,
        Bool.not_eq_eq_eq_not, Bool.not_true] at h
      exact h.1 j hj
    have h2 : cleanSegs (o :: os) ss tail = true := by
      have h := hclean
      simp only [cleanSegs, Bool.and_eq_true] at h
      exact h.2
    have hsew : sew (o :: os) (s :: ss) tail
        = s ++ ((o :: os) ++ sew (o :: os) ss tail) := rfl
    rw [hsew] at hf hskip ⊢
    have hlen : (s ++ ((o :: os) ++ sew (o :: os) ss tail)).length
        = s.length + (os.length + 1 + (sew (o :: os) ss tail).length) := by
      simp only [List.length_append, List.length_cons]
    rw [pyRepAux_skip o os new s ((o :: os) ++ sew (o :: os) ss tail) fuel
      (by omega) hskip]
    rw [pyRepAux_consume o os new (sew (o :: os) ss tail) (fuel - s.length)
      (by omega)]
    rw [ih tail (fuel - s.length - 1) (by omega) h2]
    rfl

/-- C1 (amended to configurations in which the anchor occurs exactly once):
if the content matches the anchor text at exactly one position, then the
edited content is the original prefix, then the pinned section with the
file-scheme Server URL of the staged directory, then the archzfs section,
then the anchor and the rest of the original content unchanged; in
particular both injected sections sit strictly before the anchor text in
the result. -/
theorem C1_single_anchor_insertion (dir content : List Char)
    (h : occCount anchorCore content = 1) :
    ∃ pre post, content = pre ++ anchorCore ++ post ∧
      configure_pacman (some dir) content =
        pre ++ (mkPinnedRepo dir ++ archzfs_repo) ++ anchorCore ++ post := by
  rw [anchorCore_cons] at h
  obtain ⟨pre, post, e1, e2⟩ :=
    pyRepAux_one_occ '[' "core]".toList (mkPinnedRepo dir ++ archzfs_repo ++ anchorCore)
      content.length content le_rfl h
  have e1' : content = pre ++ anchorCore ++ post := by rw [anchorCore_cons]; exact e1
  have hs : hasSub anchorCore content = true := by
    rw [e1']; exact hasSub_of_decomp anchorCore pre post
  refine ⟨pre, post, e1', ?_⟩
  rw [configure_pacman_eq_aux dir content hs, e2]
  simp [List.append_assoc]

/-- Witness for C1 on a configuration with a single anchor occurrence. -/
theorem C1_single_anchor_insertion_witness :
    occCount anchorCore ("abc\n\n[core]\nInclude = x".toList) = 1 ∧
      (∃ pre post, "abc\n\n[core]\nInclude = x".toList = pre ++ anchorCore ++ post ∧
        configure_pacman (some ("/tmp/r1".toList)) ("abc\n\n[core]\nInclude = x".toList) =
          pre ++ (mkPinnedRepo ("/tmp/r1".toList) ++ archzfs_repo) ++ anchorCore ++ post) :=
  ⟨by decide, C1_single_anchor_insertion ("/tmp/r1".toList) _ (by decide)⟩

/-- A configuration text containing the anchor twice. -/
def cxContent : List Char := "x[core]y[core]".toList

/-- A staged repository directory path. -/
def cxDir : List Char := "/tmp/r1".toList

/-- Counterexample to C1 as stated: on a configuration containing the
anchor twice, the content from the first anchor occurrence (text offset 1)
onward is NOT left unchanged by configure_pacman — the result does not end
with the original from-anchor suffix, because the substitution also
rewrites the second occurrence. -/
theorem C1_counterexample_double_anchor :
    ¬ ∃ head, configure_pacman (some cxDir) cxContent = head ++ cxContent.drop 1 := by
  rintro ⟨head, e⟩
  have hR : (configure_pacman (some cxDir) cxContent).length = 426 := by decide
  have hlen := congrArg List.length e
  rw [hR] at hlen
  simp only [List.length_append] at hlen
  have h13 : (cxContent.drop 1).length = 13 := by decide
  rw [h13] at hlen
  have hhead : head.length = 413 := by omega
  have hdrop : (head ++ cxContent.drop 1).drop head.length = cxContent.drop 1 :=
    drop_len_append _ _
  rw [← e, hhead] at hdrop
  have hne : (configure_pacman (some cxDir) cxContent).drop 413 ≠ cxContent.drop 1 := by
    decide
  exact hne hdrop

/-- C9: for every configuration content that contains the anchor more
than once — any number of occurrences at least two, given as a marked
decomposition into segments with the anchor occurring exactly at the
marks — configure_pacman inserts the pinned and archzfs sections before
EVERY occurrence, not only the first: the textual substitution replaces
all occurrences of the anchor, duplicating the injected sections once per
occurrence. -/
theorem C9_replace_all_occurrences (dir : List Char) (segs : List (List Char))
    (tail : List Char) (hn : 2 ≤ segs.length)
    (hclean : cleanSegs anchorCore segs tail = true) :
    configure_pacman (some dir) (sew anchorCore segs tail) =
      sew (mkPinnedRepo dir ++ archzfs_repo ++ anchorCore) segs tail := by
  have hs : hasSub anchorCore (sew anchorCore segs tail) = true := by
    cases segs with
    | nil => simp at hn
    | cons s ss =>
      have h := hasSub_of_decomp anchorCore s (sew anchorCore ss tail)
      have e : s ++ anchorCore ++ sew anchorCore ss tail
          = sew anchorCore (s :: ss) tail := by
        show s ++ anchorCore ++ sew anchorCore ss tail
            = s ++ (anchorCore ++ sew anchorCore ss tail)
        simp [List.append_assoc]
      rw [e] at h
      exact h
  rw [configure_pacman_eq_aux dir _ hs]
  rw [anchorCore_cons] at hclean ⊢
  exact pyRepAux_sew '[' ("core]".toList)
    (mkPinnedRepo dir ++ archzfs_repo ++ ('[' :: "core]".toList)) segs tail _ le_rfl hclean

/-- Witness for C9 on a concrete configuration with THREE anchor
occurrences. -/
theorem C9_replace_all_occurrences_witness :
    2 ≤ ([ "x".toList, "y".toList, "z".toList ] : List (List Char)).length ∧
      cleanSegs anchorCore ["x".toList, "y".toList, "z".toList] ("w".toList) = true ∧
      configure_pacman (some cxDir)
          (sew anchorCore ["x".toList, "y".toList, "z".toList] ("w".toList)) =
        sew (mkPinnedRepo cxDir ++ archzfs_repo ++ anchorCore)
          ["x".toList, "y".toList, "z".toList] ("w".toList) :=
  ⟨by decide, by decide,
    C9_replace_all_occurrences cxDir ["x".toList, "y".toList, "z".toList]
      ("w".toList) (by decide) (by decide)⟩

/-- C7: for every package-manager configuration content that does not
contain the anchor section text, configure_pacman returns the content
unchanged: the insertion is skipped and the file is not corrupted. -/
theorem C7_no_anchor_unchanged (content : List Char) (pinnedDir : Option (List Char))
    (h : hasSub anchorCore content = false) :
    configure_pacman pinnedDir content = content := by
  simp [configure_pacman, h]

/-- Witness for C7 at a concrete anchorless configuration text. -/
theorem C7_no_anchor_unchanged_witness :
    hasSub anchorCore ("[options]\nHoldPkg = pacman".toList) = false ∧
      configure_pacman none ("[options]\nHoldPkg = pacman".toList) =
        "[options]\nHoldPkg = pacman".toList :=
  ⟨by decide, C7_no_anchor_unchanged _ none (by decide)⟩

/-- Whitespace characters stripped by Python str.strip(). -/
def isPySpace (c : Char) : Bool :=
  c == ' ' || c == '\t' || c == '\n' || c == '\r' || c == '\x0b' || c == '\x0c'

/-- Python str.strip(): drop leading and trailing whitespace. -/
def pyStrip (l : List Char) : List Char :=
  ((l.dropWhile isPySpace).reverse.dropWhile isPySpace).reverse

/-- Python startswith on the raw line with the one-character pattern used
by the script. -/
def startsHash : List Char → Bool
  | [] => false
  | c :: _ => c == '#'

/-- The filter of inject_ssh_keys, line 188: the raw line is kept when it
is non-blank after stripping and does not itself start with the comment
marker. -/
def sshLineKeeps (line : List Char) : Bool :=
  !(pyStrip line).isEmpty && !startsHash line

/-- keys = [line.strip() for line in f if line.strip() and not
line.startswith("#")] (line 188).  Source lines are modelled without
their trailing newline, which changes neither the filter nor the strip. -/
def sshKeys (lines : List (List Char)) : List (List Char) :=
  (lines.filter sshLineKeeps).map pyStrip

/-- Python "\n".join. -/
def joinNL : List (List Char) → List Char
  | [] => []
  | [k] => k
  | k :: k2 :: ks => k ++ '\n' :: joinNL (k2 :: ks)

/-- Filesystem effects of inject_ssh_keys, in program order. -/
inductive FsEvent where
  | mkdirSshDir
  | writeAuthorizedKeys (content : List Char)
  | chmodFile (mode : Nat)
  | chmodDir (mode : Nat)
deriving DecidableEq

/-- inject_ssh_keys (lines 173-205) as the list of filesystem effects it
performs, given whether the source file exists and its lines: return with
no effect when the source is missing or filters to nothing; otherwise
create the .ssh directory, write the newline-joined keys plus a final
newline, then chmod the file to 0o600 and the directory to 0o700. -/
def inject_ssh_keys (srcExists : Bool) (lines : List (List Char)) : List FsEvent :=
  if !srcExists then []
  else
    let keys := sshKeys lines
    if keys.isEmpty then []
    else
      [FsEvent.mkdirSshDir,
       FsEvent.writeAuthorizedKeys (joinNL keys ++ ['\n']),
       FsEvent.chmodFile 0o600,
       FsEvent.chmodDir 0o700]

/-- The content written by a trace, if any. -/
def writtenContent (evs : List FsEvent) : Option (List Char) :=
  evs.findSome? fun e =>
    match e with
    | FsEvent.writeAuthorizedKeys c => some c
    | _ => none

/-- Decomposition of a text into newline-terminated lines (a final
fragment without newline also counts as a line). -/
def linesOf (s : List Char) : List (List Char) :=
  s.foldr
    (fun c acc =>
      if c = '\n' then [] :: acc
      else
        match acc with
        | [] => [[c]]
        | a :: as => (c :: a) :: as)
    []

theorem linesOf_append_newline :
    ∀ (k rest : List Char), '\n' ∉ k →
      linesOf (k ++ '\n' :: rest) = k :: linesOf rest := by
  intro k
  induction k with
  | nil => intro rest _; simp [linesOf]
  | cons c k ih =>
    intro rest hmem
    have hc : ¬ c = '\n' := by
      intro h; exact hmem (by simp [h])
    have hk : '\n' ∉ k := fun h => hmem (by simp [h])
    have hrec := ih rest hk
    simp only [linesOf, List.cons_append, List.foldr_cons] at hrec ⊢
    rw [hrec]
    simp [hc]

theorem linesOf_joinNL :
    ∀ ks : List (List Char), ks ≠ [] → (∀ k ∈ ks, '\n' ∉ k) →
      linesOf (joinNL ks ++ ['\n']) = ks := by
  intro ks
  induction ks with
  | nil => intro h; exact absurd rfl h
  | cons k ks ih =>
    intro _ hmem
    cases ks with
    | nil =>
      have hk : '\n' ∉ k := hmem k (by simp)
      have := linesOf_append_newline k [] hk
      simpa [joinNL, linesOf] using this
    | cons k2 ks' =>
      have hk : '\n' ∉ k := hmem k (by simp)
      have hrest : ∀ x ∈ k2 :: ks', '\n' ∉ x := by
        intro x hx; exact hmem x (by simp [hx])
      have hih := ih (by simp) hrest
      have hj : joinNL (k :: k2 :: ks') ++ ['\n']
          = k ++ '\n' :: (joinNL (k2 :: ks') ++ ['\n']) := by
        simp [joinNL]
      rw [hj, linesOf_append_newline k _ hk, hih]

theorem mem_of_mem_dropWhile (p : Char → Bool) :
    ∀ (l : List Char) (x : Char), x ∈ l.dropWhile p → x ∈ l := by
  intro l
  induction l with
  | nil => intro x h; simp at h
  | cons c cs ih =>
    intro x h
    by_cases hp : p c = true
    · simp only [List.dropWhile_cons, hp, if_true] at h
      exact List.mem_cons_of_mem c (ih x h)
    · simp only [List.dropWhile_cons, hp] at h
      simpa using h

theorem mem_of_mem_pyStrip (l : List Char) (x : Char) (h : x ∈ pyStrip l) : x ∈ l := by
  unfold pyStrip at h
  rw [List.mem_reverse] at h
  have h2 := mem_of_mem_dropWhile isPySpace _ x h
  rw [List.mem_reverse] at h2
  exact mem_of_mem_dropWhile isPySpace _ x h2

theorem sshKeys_no_newline (lines : List (List Char))
    (hnl : ∀ l ∈ lines, '\n' ∉ l) :
    ∀ k ∈ sshKeys lines, '\n' ∉ k := by
  intro k hk hin
  unfold sshKeys at hk
  rw [List.mem_map] at hk
  obtain ⟨l, hl, rfl⟩ := hk
  exact hnl l (List.mem_of_mem_filter hl) (mem_of_mem_pyStrip l '\n' hin)

/-- C2 (amended): a line qualifies when it is non-blank after trimming
and the raw line does not itself begin with the comment marker; the
injector writes exactly the trimmed qualifying lines, in their original
relative order, newline-terminated, and applies file mode 0o600 and
directory mode 0o700 after the write (the trace lists effects in program
order). -/
theorem C2_trust_material_injection (lines : List (List Char))
    (hnl : ∀ l ∈ lines, '\n' ∉ l)
    (hne : sshKeys lines ≠ []) :
    inject_ssh_keys true lines =
      [FsEvent.mkdirSshDir,
       FsEvent.writeAuthorizedKeys (joinNL (sshKeys lines) ++ ['\n']),
       FsEvent.chmodFile 0o600,
       FsEvent.chmodDir 0o700] ∧
    linesOf (joinNL (sshKeys lines) ++ ['\n']) = sshKeys lines ∧
    (sshKeys lines).length = (lines.filter sshLineKeeps).length ∧
    sshKeys lines = (lines.filter sshLineKeeps).map pyStrip := by
  refine ⟨?_, ?_, ?_, rfl⟩
  · simp [inject_ssh_keys, List.isEmpty_iff, hne]
  · exact linesOf_joinNL _ hne (sshKeys_no_newline lines hnl)
  · simp [sshKeys]

/-- Source lines for the C2 witness. -/
def w2lines : List (List Char) :=
  ["ssh-ed25519 AAA".toList, "# c".toList, "".toList]

/-- Witness for C2 on a source with one key, one comment, one blank. -/
theorem C2_trust_material_injection_witness :
    (∀ l ∈ w2lines, '\n' ∉ l) ∧ sshKeys w2lines ≠ [] ∧
      (inject_ssh_keys true w2lines =
        [FsEvent.mkdirSshDir,
         FsEvent.writeAuthorizedKeys (joinNL (sshKeys w2lines) ++ ['\n']),
         FsEvent.chmodFile 0o600,
         FsEvent.chmodDir 0o700] ∧
      linesOf (joinNL (sshKeys w2lines) ++ ['\n']) = sshKeys w2lines ∧
      (sshKeys w2lines).length = (w2lines.filter sshLineKeeps).length ∧
      sshKeys w2lines = (w2lines.filter sshLineKeeps).map pyStrip) :=
  ⟨by decide, by decide, C2_trust_material_injection w2lines (by decide) (by decide)⟩

/-- The qualifying-line predicate as the claim words it: non-empty after
trimming and the TRIMMED line does not begin with the comment marker. -/
def claimQualify (line : List Char) : Bool :=
  !(pyStrip line).isEmpty && !startsHash (pyStrip line)

/-- Source lines refuting C2 as stated: a comment indented by spaces. -/
def c2cxLines : List (List Char) :=
  ["ssh-ed25519 AAA".toList, "  # hidden".toList]

/-- Counterexample to C2 as stated: with an indented comment line, the
written credentials file does not consist of the qualifying lines in the
sense of the claim — the code tests startswith on the raw line, so the
indented comment is kept (trimmed), giving two output lines where the
claim predicts exactly one. -/
theorem C2_counterexample_indented_comment :
    (writtenContent (inject_ssh_keys true c2cxLines)).map linesOf ≠
      some (c2cxLines.filter claimQualify) := by
  decide

/-- C10: if the credentials source file is missing, or exists but yields
zero lines after the filter of line 188, inject_ssh_keys performs no
filesystem effect at all: no directory creation, no write, no chmod. -/
theorem C10_missing_or_empty_no_write (lines : List (List Char)) :
    inject_ssh_keys false lines = [] ∧
      (sshKeys lines = [] → inject_ssh_keys true lines = []) := by
  constructor
  · rfl
  · intro h
    simp [inject_ssh_keys, h]

/-- Witness for C10 on a comment-only source file. -/
theorem C10_missing_or_empty_no_write_witness :
    sshKeys ["# only a comment".toList] = [] ∧
      inject_ssh_keys true ["# only a comment".toList] = [] :=
  ⟨by decide, (C10_missing_or_empty_no_write ["# only a comment".toList]).2 (by decide)⟩

/-- A directory entry in a systemd wants directory. -/
inductive SNode where
  | symlink (target : String)
  | regular
deriving DecidableEq

/-- Association-list lookup by entry name. -/
def alookup (n : String) : List (String × SNode) → Option SNode
  | [] => none
  | e :: tl => if e.1 = n then some e.2 else alookup n tl

/-- Remove the entry (all entries) named n; models Path.unlink. -/
def removeAll (n : String) : List (String × SNode) → List (String × SNode)
  | [] => []
  | e :: tl => if e.1 = n then removeAll n tl else e :: removeAll n tl

/-- One disable step (lines 272-276, 282-286): if a link exists (as a
symlink or a regular file placed at that path) it is removed; a missing
link is skipped. -/
def unlinkIn (d : List (String × SNode)) (n : String) : List (String × SNode) :=
  if (alookup n d).isSome then removeAll n d else d

/-- The disable pass over one wants directory. -/
def disableAllIn (names : List String) (d : List (String × SNode)) :
    List (String × SNode) :=
  names.foldl unlinkIn d

/-- The canonical unit location used by enable_services, line 320. -/
def canonicalUnit (n : String) : String := "/usr/lib/systemd/system/" ++ n

/-- One enable step (lines 318-324): skip when a link already exists at
that path (may be from the releng template), otherwise create a symlink
to the canonical unit location. -/
def enableIn (d : List (String × SNode)) (n : String) : List (String × SNode) :=
  if (alookup n d).isSome then d
  else d ++ [(n, SNode.symlink (canonicalUnit n))]

/-- The enable pass over the multi-user wants directory. -/
def enableAllIn (names : List String) (d : List (String × SNode)) :
    List (String × SNode) :=
  names.foldl enableIn d

/-- The activation state edited by the script: the multi-user wants
directory (created if needed by enable_services) and the two optional
extra target wants directories probed by disable_conflicting_services. -/
structure SvcState where
  multiUser : List (String × SNode)
  networkOnline : Option (List (String × SNode))
  sockets : Option (List (String × SNode))
deriving DecidableEq

/-- The disable list of lines 252-270. -/
def servicesToDisable : List String :=
  ["systemd-networkd.service", "systemd-networkd.socket",
   "systemd-networkd-wait-online.service", "systemd-resolved.service",
   "iwd.service", "cloud-init-local.service", "cloud-init-main.service",
   "cloud-init-network.service", "cloud-config.service",
   "cloud-final.service", "livecd-talk.service",
   "livecd-alsa-unmuter.service", "choose-mirror.service"]

/-- The enable list of lines 313-316. -/
def servicesToEnable : List String :=
  ["sshd.service", "NetworkManager.service"]

/-- disable across all target directories, parametric in the list. -/
def disableL (names : List String) (s : SvcState) : SvcState :=
  { multiUser := disableAllIn names s.multiUser,
    networkOnline := s.networkOnline.map (disableAllIn names),
    sockets := s.sockets.map (disableAllIn names) }

/-- disable_conflicting_services (lines 245-286). -/
def disable_conflicting_services (s : SvcState) : SvcState :=
  disableL servicesToDisable s

/-- enable on the primary multi-user directory, parametric in the list. -/
def enableL (names : List String) (s : SvcState) : SvcState :=
  { s with multiUser := enableAllIn names s.multiUser }

/-- enable_services (lines 306-324). -/
def enable_services (s : SvcState) : SvcState :=
  enableL servicesToEnable s

/-- The service edits in the order main applies them (lines 399 and 405):
disable pass, then enable pass. -/
def applyServiceEditor (s : SvcState) : SvcState :=
  enable_services (disable_conflicting_services s)

theorem alookup_removeAll_self (n : String) :
    ∀ d : List (String × SNode), alookup n (removeAll n d) = none := by
  intro d
  induction d with
  | nil => rfl
  | cons e tl ih =>
    by_cases he : e.1 = n
    · simp [removeAll, he, ih]
    · simp [removeAll, alookup, he, ih]

theorem alookup_none_removeAll (n m : String) :
    ∀ d : List (String × SNode), alookup n d = none →
      alookup n (removeAll m d) = none := by
  intro d
  induction d with
  | nil => intro _; rfl
  | cons e tl ih =>
    intro h
    by_cases he1 : e.1 = n
    · simp [alookup, he1] at h
    · simp only [alookup, he1, if_false] at h
      by_cases he2 : e.1 = m
      · simp [removeAll, he2, ih h]
      · simp [removeAll, alookup, he2, he1, ih h]

theorem unlinkIn_self (d : List (String × SNode)) (n : String) :
    alookup n (unlinkIn d n) = none := by
  unfold unlinkIn
  by_cases hs : (alookup n d).isSome = true
  · simp [hs, alookup_removeAll_self]
  · have hn : alookup n d = none := Option.not_isSome_iff_eq_none.mp hs
    simp [hs, hn]

theorem unlinkIn_none_preserved (d : List (String × SNode)) (n m : String)
    (h : alookup n d = none) : alookup n (unlinkIn d m) = none := by
  unfold unlinkIn
  by_cases hs : (alookup m d).isSome = true
  · simp [hs, alookup_none_removeAll n m d h]
  · simp [hs, h]

theorem disableAllIn_none (names : List String) :
    ∀ (d : List (String × SNode)) (n : String),
      (n ∈ names ∨ alookup n d = none) →
      alookup n (disableAllIn names d) = none := by
  induction names with
  | nil =>
    intro d n h
    rcases h with h | h
    · simp at h
    · exact h
  | cons m ms ih =>
    intro d n h
    show alookup n (disableAllIn ms (unlinkIn d m)) = none
    rcases h with h | h
    · rcases List.mem_cons.mp h with rfl | hms
      · exact ih _ n (Or.inr (unlinkIn_self d n))
      · exact ih _ n (Or.inl hms)
    · exact ih _ n (Or.inr (unlinkIn_none_preserved d n m h))

theorem disableAllIn_id (names : List String) :
    ∀ d : List (String × SNode), (∀ n ∈ names, alookup n d = none) →
      disableAllIn names d = d := by
  induction names with
  | nil => intro d _; rfl
  | cons m ms ih =>
    intro d h
    have hm : unlinkIn d m = d := by
      unfold unlinkIn
      simp [h m (by simp)]
    show disableAllIn ms (unlinkIn d m) = d
    rw [hm]
    exact ih d fun n hn => h n (by simp [hn])

theorem alookup_append_none (n : String) (d e : List (String × SNode))
    (h : alookup n d = none) : alookup n (d ++ e) = alookup n e := by
  induction d with
  | nil => rfl
  | cons x tl ih =>
    by_cases hx : x.1 = n
    · simp [alookup, hx] at h
    · simp only [alookup, hx, if_false] at h
      simp [alookup, hx, ih h]

theorem alookup_append_some (n : String) (d e : List (String × SNode)) (v : SNode)
    (h : alookup n d = some v) : alookup n (d ++ e) = some v := by
  induction d with
  | nil => simp [alookup] at h
  | cons x tl ih =>
    by_cases hx : x.1 = n
    · simp only [alookup, hx, if_true] at h
      simp [alookup, hx, h]
    · simp only [alookup, hx, if_false] at h
      simp [alookup, hx, ih h]

theorem enableIn_preserves_some (d : List (String × SNode)) (n m : String) (v : SNode)
    (h : alookup n d = some v) : alookup n (enableIn d m) = some v := by
  unfold enableIn
  by_cases hs : (alookup m d).isSome = true
  · simp [hs, h]
  · simp [hs, alookup_append_some n d _ v h]

theorem enableIn_self (d : List (String × SNode)) (n : String)
    (h : alookup n d = none) :
    alookup n (enableIn d n) = some (SNode.symlink (canonicalUnit n)) := by
  unfold enableIn
  have hs : (alookup n d).isSome = false := by simp [h]
  simp [hs, alookup_append_none n d _ h, alookup]

theorem enableIn_none_ne (d : List (String × SNode)) (n m : String)
    (h : alookup n d = none) (hne : m ≠ n) :
    alookup n (enableIn d m) = none := by
  unfold enableIn
  by_cases hs : (alookup m d).isSome = true
  · simp [hs, h]
  · simp [hs, alookup_append_none n d _ h, alookup, hne]

theorem enableAllIn_some (names : List String) :
    ∀ (d : List (String × SNode)) (n : String) (v : SNode),
      alookup n d = some v → alookup n (enableAllIn names d) = some v := by
  induction names with
  | nil => intro d n v h; exact h
  | cons m ms ih =>
    intro d n v h
    exact ih _ n v (enableIn_preserves_some d n m v h)

theorem enableAllIn_creates (names : List String) :
    ∀ (d : List (String × SNode)) (n : String), n ∈ names →
      alookup n d = none →
      alookup n (enableAllIn names d) = some (SNode.symlink (canonicalUnit n)) := by
  induction names with
  | nil => intro d n h; simp at h
  | cons m ms ih =>
    intro d n hmem h0
    by_cases hm : m = n
    · subst hm
      exact enableAllIn_some ms _ m _ (enableIn_self d m h0)
    · have hms : n ∈ ms := by
        rcases List.mem_cons.mp hmem with rfl | hms
        · exact absurd rfl hm
        · exact hms
      exact ih _ n hms (enableIn_none_ne d n m h0 hm)

theorem enableAllIn_none_not_mem (names : List String) :
    ∀ (d : List (String × SNode)) (n : String), n ∉ names →
      alookup n d = none → alookup n (enableAllIn names d) = none := by
  induction names with
  | nil => intro d n _ h; exact h
  | cons m ms ih =>
    intro d n hmem h0
    have hm : m ≠ n := fun h => hmem (by simp [h])
    have hms : n ∉ ms := fun h => hmem (by simp [h])
    exact ih _ n hms (enableIn_none_ne d n m h0 hm)

theorem enableAllIn_isSome_of_mem (names : List String)
    (d : List (String × SNode)) (n : String) (h : n ∈ names) :
    (alookup n (enableAllIn names d)).isSome = true := by
  cases h0 : alookup n d with
  | none => simp [enableAllIn_creates names d n h h0]
  | some v => simp [enableAllIn_some names d n v h0]

theorem enableAllIn_id (names : List String) :
    ∀ d : List (String × SNode), (∀ n ∈ names, (alookup n d).isSome = true) →
      enableAllIn names d = d := by
  induction names with
  | nil => intro d _; rfl
  | cons m ms ih =>
    intro d h
    have hm : enableIn d m = d := by
      unfold enableIn
      simp [h m (by simp)]
    show enableAllIn ms (enableIn d m) = d
    rw [hm]
    exact ih d fun n hn => h n (by simp [hn])

/-- C3: for every disable list, enable list, and service named in both,
running the disable pass and then the enable pass (the order used by main,
lines 399 and 405) leaves the service with an activation link in the
primary multi-user wants directory, pointing at its canonical unit
location: the service ends in the enabled state.  (The hardcoded lists of
the script are disjoint, so the property is stated for the parametric
disable/enable operations of the two functions.) -/
theorem C3_disable_before_enable (dns ens : List String) (name : String) (s : SvcState)
    (hd : name ∈ dns) (he : name ∈ ens) :
    alookup name (enableL ens (disableL dns s)).multiUser =
      some (SNode.symlink (canonicalUnit name)) := by
  have h1 : alookup name (disableL dns s).multiUser = none :=
    disableAllIn_none dns s.multiUser name (Or.inl hd)
  exact enableAllIn_creates ens _ name he h1

/-- A concrete starting state for the C3 witness. -/
def svc0 : SvcState := ⟨[("sshd.service", SNode.regular)], none, none⟩

/-- Witness for C3 with sshd named in both lists. -/
theorem C3_disable_before_enable_witness :
    "sshd.service" ∈ ["sshd.service"] ∧ "sshd.service" ∈ servicesToEnable ∧
      alookup "sshd.service"
          (enableL servicesToEnable (disableL ["sshd.service"] svc0)).multiUser =
        some (SNode.symlink (canonicalUnit "sshd.service")) :=
  ⟨by decide, by decide,
    C3_disable_before_enable ["sshd.service"] servicesToEnable "sshd.service" svc0
      (by decide) (by decide)⟩

/-- C8: the enable pass never overwrites an entry that already exists in
the multi-user wants directory (whatever it is), and at a path with no
entry it creates the symlink to the canonical unit location exactly when
the service is in the enable list. -/
theorem C8_enable_frame (s : SvcState) (name : String) :
    (∀ v, alookup name s.multiUser = some v →
        alookup name (enable_services s).multiUser = some v) ∧
      (alookup name s.multiUser = none →
        alookup name (enable_services s).multiUser =
          if name ∈ servicesToEnable
          then some (SNode.symlink (canonicalUnit name))
          else none) := by
  constructor
  · intro v hv
    exact enableAllIn_some servicesToEnable _ name v hv
  · intro h0
    by_cases hm : name ∈ servicesToEnable
    · rw [if_pos hm]
      exact enableAllIn_creates servicesToEnable _ name hm h0
    · rw [if_neg hm]
      exact enableAllIn_none_not_mem servicesToEnable _ name hm h0

/-- A state with a template-provided NetworkManager link whose target is
not the canonical location. -/
def svc1 : SvcState :=
  ⟨[("NetworkManager.service", SNode.symlink "/run/template-link")], none, none⟩

/-- Witness for C8: the pre-existing link keeps its original target. -/
theorem C8_enable_frame_witness :
    alookup "NetworkManager.service" svc1.multiUser =
        some (SNode.symlink "/run/template-link") ∧
      alookup "NetworkManager.service" (enable_services svc1).multiUser =
        some (SNode.symlink "/run/template-link") :=
  ⟨by decide,
    (C8_enable_frame svc1 "NetworkManager.service").1 _ (by decide)⟩

/-- The profile tree touched by the boot entry reconciliation, as a map
from relative path to optional file content. -/
def PTree : Type := String → Option (List Char)

/-- Path.unlink on the tree. -/
def removeFile (t : PTree) (p : String) : PTree :=
  fun q => if q = p then none else t q

/-- Guarded unlink of lines 152-154: only unlink when the entry exists;
an absent entry is skipped, not an error. -/
def removeIfExists (t : PTree) (p : String) : PTree :=
  if (t p).isSome then removeFile t p else t

/-- The stock-kernel boot entries removed by lines 150-151. -/
def bootEntriesToRemove : List String :=
  ["01-archiso-linux.conf", "02-archiso-speech-linux.conf"]

/-- Location of a boot entry inside the profile. -/
def entryPath (n : String) : String := "efiboot/loader/entries/" ++ n

/-- The removal loop of lines 151-155. -/
def removeBootEntries (t : PTree) : PTree :=
  bootEntriesToRemove.foldl (fun t n => removeIfExists t (entryPath n)) t

/-- shutil.copy on the tree: create/overwrite the destination path. -/
def writeFile (t : PTree) (p : String) (c : List Char) : PTree :=
  fun q => if q = p then some c else t q

/-- The copy loops of lines 158-168: the repo overlay determines a fixed
list of (destination path, content) writes, identical on every run. -/
def copyBootConfigs (copies : List (String × List Char)) (t : PTree) : PTree :=
  copies.foldl (fun t pc => writeFile t pc.1 pc.2) t

/-- The Boot Entry Reconciler (lines 149-168): remove the stock-kernel
entries, then copy the replacement boot configuration files. -/
def reconcile_boot_entries (copies : List (String × List Char)) (t : PTree) : PTree :=
  copyBootConfigs copies (removeBootEntries t)

theorem removeIfExists_apply (t : PTree) (p q : String) :
    removeIfExists t p q = if q = p then none else t q := by
  by_cases hq : q = p
  · subst hq
    by_cases hs : (t q).isSome = true
    · simp [removeIfExists, removeFile, hs]
    · have hn : t q = none := Option.not_isSome_iff_eq_none.mp hs
      simp [removeIfExists, hs, hn]
  · by_cases hs : (t p).isSome = true
    · simp [removeIfExists, removeFile, hs, hq]
    · simp [removeIfExists, hs, hq]

theorem removeEntries_foldl_apply (names : List String) :
    ∀ (t : PTree) (q : String),
      (names.foldl (fun t n => removeIfExists t (entryPath n)) t) q =
        if q ∈ names.map entryPath then none else t q := by
  induction names with
  | nil => intro t q; simp
  | cons n ns ih =>
    intro t q
    rw [List.foldl_cons, ih, removeIfExists_apply]
    by_cases h1 : q ∈ ns.map entryPath
    · simp [h1]
    · by_cases h2 : q = entryPath n
      · simp [h1, h2]
      · simp [h1, h2]

theorem removeBootEntries_apply (t : PTree) (q : String) :
    removeBootEntries t q =
      if q ∈ bootEntriesToRemove.map entryPath then none else t q :=
  removeEntries_foldl_apply bootEntriesToRemove t q

/-- The last write to a path in the copy list, if any. -/
def lastWriteOf (copies : List (String × List Char)) (q : String) : Option (List Char) :=
  match copies with
  | [] => none
  | pc :: cps =>
    match lastWriteOf cps q with
    | some c => some c
    | none => if pc.1 = q then some pc.2 else none

theorem copyBootConfigs_apply :
    ∀ (copies : List (String × List Char)) (t : PTree) (q : String),
      copyBootConfigs copies t q =
        match lastWriteOf copies q with
        | some c => some c
        | none => t q := by
  intro copies
  induction copies with
  | nil => intro t q; rfl
  | cons pc cps ih =>
    intro t q
    have hstep : copyBootConfigs (pc :: cps) t =
        copyBootConfigs cps (writeFile t pc.1 pc.2) := rfl
    rw [hstep, ih (writeFile t pc.1 pc.2) q]
    cases hlw : lastWriteOf cps q with
    | some c => simp [lastWriteOf, hlw]
    | none =>
      simp only [lastWriteOf, hlw]
      unfold writeFile
      by_cases h : pc.1 = q
      · simp [h]
      · simp [h, Ne.symm h]

theorem disableAllIn_idem (names : List String) (d : List (String × SNode)) :
    disableAllIn names (disableAllIn names d) = disableAllIn names d :=
  disableAllIn_id names _ fun n hn => disableAllIn_none names d n (Or.inl hn)

theorem serviceEditor_idem (s : SvcState) :
    applyServiceEditor (applyServiceEditor s) = applyServiceEditor s := by
  have hdisj : ∀ n ∈ servicesToDisable, n ∉ servicesToEnable := by decide
  have hmu : ∀ d : List (String × SNode),
      enableAllIn servicesToEnable (disableAllIn servicesToDisable
          (enableAllIn servicesToEnable (disableAllIn servicesToDisable d))) =
        enableAllIn servicesToEnable (disableAllIn servicesToDisable d) := by
    intro d
    have hnone : ∀ n ∈ servicesToDisable,
        alookup n (enableAllIn servicesToEnable
          (disableAllIn servicesToDisable d)) = none :=
      fun n hn => enableAllIn_none_not_mem _ _ _ (hdisj n hn)
        (disableAllIn_none _ _ _ (Or.inl hn))
    rw [disableAllIn_id _ _ hnone]
    exact enableAllIn_id _ _ fun n hn => enableAllIn_isSome_of_mem _ _ _ hn
  cases s with
  | mk mu no so =>
    have hstep : applyServiceEditor (SvcState.mk mu no so) = SvcState.mk
        (enableAllIn servicesToEnable (disableAllIn servicesToDisable mu))
        (no.map (disableAllIn servicesToDisable))
        (so.map (disableAllIn servicesToDisable)) := by
      simp only [applyServiceEditor, enable_services, disable_conflicting_services,
        enableL, disableL]
    rw [hstep]
    have hstep2 : applyServiceEditor (SvcState.mk
        (enableAllIn servicesToEnable (disableAllIn servicesToDisable mu))
        (no.map (disableAllIn servicesToDisable))
        (so.map (disableAllIn servicesToDisable))) = SvcState.mk
        (enableAllIn servicesToEnable (disableAllIn servicesToDisable
          (enableAllIn servicesToEnable (disableAllIn servicesToDisable mu))))
        ((no.map (disableAllIn servicesToDisable)).map
          (disableAllIn servicesToDisable))
        ((so.map (disableAllIn servicesToDisable)).map
          (disableAllIn servicesToDisable)) := by
      simp only [applyServiceEditor, enable_services, disable_conflicting_services,
        enableL, disableL]
    rw [hstep2, hmu mu]
    cases no <;> cases so <;> simp [disableAllIn_idem]

/-- C4: running the Boot Entry Reconciler twice produces the same tree as
running it once; running the Service Activation Editor (disable pass then
enable pass) twice produces the same activation state as running it once;
and an already absent boot entry is skipped by the guarded unlink rather
than being an error (the removal is the identity there). -/
theorem C4_reconciler_and_service_editor_idempotent
    (copies : List (String × List Char)) (t : PTree) (s : SvcState) :
    reconcile_boot_entries copies (reconcile_boot_entries copies t) =
        reconcile_boot_entries copies t ∧
      applyServiceEditor (applyServiceEditor s) = applyServiceEditor s ∧
      ∀ p, t p = none → removeIfExists t p = t := by
  refine ⟨?_, serviceEditor_idem s, ?_⟩
  · funext q
    show copyBootConfigs copies
        (removeBootEntries (reconcile_boot_entries copies t)) q =
      reconcile_boot_entries copies t q
    rw [copyBootConfigs_apply]
    cases hlw : lastWriteOf copies q with
    | some c =>
      simp only [hlw]
      show some c = copyBootConfigs copies (removeBootEntries t) q
      rw [copyBootConfigs_apply, hlw]
    | none =>
      simp only [hlw]
      rw [removeBootEntries_apply]
      show (if q ∈ bootEntriesToRemove.map entryPath then none
          else reconcile_boot_entries copies t q) =
        reconcile_boot_entries copies t q
      by_cases hm : q ∈ bootEntriesToRemove.map entryPath
      · rw [if_pos hm]
        show (none : Option (List Char)) =
          copyBootConfigs copies (removeBootEntries t) q
        rw [copyBootConfigs_apply, hlw, removeBootEntries_apply, if_pos hm]
      · rw [if_neg hm]
  · intro p hp
    unfold removeIfExists
    simp [hp]

/-- The empty profile tree. -/
def emptyTree : PTree := fun _ => none

/-- An empty activation state. -/
def svcEmpty : SvcState := ⟨[], none, none⟩

/-- Witness for C4: unlinking an absent entry is skipped, not an error. -/
theorem C4_reconciler_and_service_editor_idempotent_witness :
    emptyTree "efiboot/loader/entries/01-archiso-linux.conf" = none ∧
      removeIfExists emptyTree "efiboot/loader/entries/01-archiso-linux.conf" =
        emptyTree :=
  ⟨rfl,
    (C4_reconciler_and_service_editor_idempotent [] emptyTree svcEmpty).2.2
      "efiboot/loader/entries/01-archiso-linux.conf" rfl⟩

/-- A node of the template tree: a regular file or a symbolic link. -/
inductive FNode where
  | file (content : List Char)
  | link (target : String)
deriving DecidableEq

/-- Association-list lookup by path. -/
def flookup (p : String) : List (String × FNode) → Option FNode
  | [] => none
  | e :: tl => if e.1 = p then some e.2 else flookup p tl

/-- How shutil.copytree materialises one node: with symlinks=True a link
is reproduced as a link; with symlinks=False it would be dereferenced
into a regular file holding the resolved content. -/
def copyNode (symlinks : Bool) (resolve : String → List Char) : FNode → FNode
  | FNode.file c => FNode.file c
  | FNode.link tgt => if symlinks then FNode.link tgt else FNode.file (resolve tgt)

/-- shutil.copytree over the template tree. -/
def copytree (symlinks : Bool) (resolve : String → List Char)
    (src : List (String × FNode)) : List (String × FNode) :=
  src.map fun pn => (pn.1, copyNode symlinks resolve pn.2)

/-- The base copy of setup_archiso_profile, line 130:
shutil.copytree(releng_path, profile_dir, symlinks=True). -/
def baseProfileCopy (resolve : String → List Char)
    (src : List (String × FNode)) : List (String × FNode) :=
  copytree true resolve src

/-- C5: every path that is a symbolic link in the template tree is a
symbolic link (with the same target, in particular never a regular file)
at the corresponding path of the base copy of the profile. -/
theorem C5_copytree_preserves_links (resolve : String → List Char)
    (src : List (String × FNode)) (p tgt : String)
    (h : flookup p src = some (FNode.link tgt)) :
    flookup p (baseProfileCopy resolve src) = some (FNode.link tgt) := by
  revert h
  induction src with
  | nil => intro h; simp [flookup] at h
  | cons e tl ih =>
    intro h
    by_cases he : e.1 = p
    · simp only [flookup, he, if_true, Option.some.injEq] at h
      simp only [baseProfileCopy, copytree, List.map_cons, flookup, he, if_true]
      rw [h]
      rfl
    · simp only [flookup, he, if_false] at h
      have hh := ih h
      simp only [baseProfileCopy, copytree, flookup, List.map_cons, he,
        if_false] at hh ⊢
      exact hh

/-- A small template tree with one link, as in the releng boot tree. -/
def relengSrc : List (String × FNode) :=
  [("efiboot/loader/loader.conf", FNode.file ("timeout 3".toList)),
   ("airootfs/etc/localtime", FNode.link "/usr/share/zoneinfo/UTC")]

/-- Witness for C5 on the concrete template tree. -/
theorem C5_copytree_preserves_links_witness :
    flookup "airootfs/etc/localtime" relengSrc =
        some (FNode.link "/usr/share/zoneinfo/UTC") ∧
      flookup "airootfs/etc/localtime" (baseProfileCopy (fun _ => []) relengSrc) =
        some (FNode.link "/usr/share/zoneinfo/UTC") :=
  ⟨by decide,
    C5_copytree_preserves_links (fun _ => []) relengSrc _ _ (by decide)⟩

/-- The long-term-support qualifier looked for at line 104. -/
def ltsTok : List Char := "lts".toList

/-- kernel_name = "linux-lts" if "lts" in config.kernel_version else
"linux" (line 104). -/
def kernelNameFor (kernelVersion : List Char) : List Char :=
  if hasSub ltsTok kernelVersion then "linux-lts".toList else "linux".toList

/-- zfs_name = f"zfs-{kernel_name}" (line 105). -/
def zfsNameFor (kernelVersion : List Char) : List Char :=
  "zfs-".toList ++ kernelNameFor kernelVersion

/-- C6: the module-package identifier is always the fixed naming
transform zfs- prefixed to the resolved kernel identifier, and when the
resolved kernel version contains the long-term-support qualifier the
resolver returns the LTS kernel package name and a module-package
identifier that contains the qualifier. -/
theorem C6_module_name_transform (kv : List Char) :
    zfsNameFor kv = "zfs-".toList ++ kernelNameFor kv ∧
      (hasSub ltsTok kv = true →
        kernelNameFor kv = "linux-lts".toList ∧
          hasSub ltsTok (zfsNameFor kv) = true) := by
  refine ⟨rfl, ?_⟩
  intro h
  constructor
  · simp [kernelNameFor, h]
  · have hz : zfsNameFor kv = "zfs-".toList ++ "linux-lts".toList := by
      simp [zfsNameFor, kernelNameFor, h]
    rw [hz]
    decide

/-- Witness for C6 at a concrete LTS kernel version. -/
theorem C6_module_name_transform_witness :
    hasSub ltsTok ("6.6.63-1-lts".toList) = true ∧
      (kernelNameFor ("6.6.63-1-lts".toList) = "linux-lts".toList ∧
        hasSub ltsTok (zfsNameFor ("6.6.63-1-lts".toList)) = true) :=
  ⟨by decide, (C6_module_name_transform ("6.6.63-1-lts".toList)).2 (by decide)⟩
